import Mathlib

/-!
Verification of the incremental synchronization engine of the zadbz data
pipeline (fetch_epl_data.py, update_fbref_team_matchlogs.py).

Modeling conventions (shallow embedding):
* A pandas DataFrame is a `Table`: a list of column names plus rows of string
  cells positionally aligned with the columns.  All cell values are strings
  (the key columns are coerced with `astype(str)` in the source before any
  comparison, and CSV round-trips through text); a missing value (NaN) is the
  string "nan", which is what `astype(str)` produces for NaN.
* `pd.concat` of several frames aligns columns by name; `concatTables` builds
  the union of the column lists in order of first appearance and realigns each
  row, filling absent columns with the missing marker.
* `drop_duplicates(subset=key_cols, keep="last")` is `dedupLast`: it keeps, in
  original order, the last occurrence of each key.
* `sort_values(sort_cols, kind="stable")` is `List.insertionSort` (stable) by
  the lexicographic order on the projected sort-key columns.
* Content fingerprints (md5 / sha256 of serialized bytes) are modeled as an
  abstract digest function parameter; the fingerprint contract of the system
  (distinct content gives distinct digests) is the injectivity hypothesis
  carried by the theorems that need it.
* Filesystem effects are explicit state passing: a persisted file is an
  `Option Table`, the hash ledger an `Option D`.
-/

namespace Zadbz

/-- A row of a table: cell values, positionally aligned with the column list. -/
abbrev Row := List String

/-- A pandas DataFrame: column names plus rows of cells. -/
structure Table where
  cols : List String
  rows : List Row
deriving DecidableEq

/-- Value of column `c` in row `r` (columns listed in `cols`); missing data is
the string "nan", the textual form `astype(str)` gives to NaN. -/
def getCellD (cols : List String) (r : Row) (c : String) : String :=
  match cols.findIdx? (fun x => x == c) with
  | some i => r.getD i "nan"
  | none => "nan"

/-! ### Deduplication: `drop_duplicates(subset=key_cols, keep="last")`

`dedupLast f l` keeps the rows of `l` in order, dropping any row a later row
of which has the same key under `f`.  This is exactly pandas
`drop_duplicates(keep="last")`: the last occurrence of each key survives, at
its original position. -/
/-- Keep the last occurrence of each key, preserving the order of survivors. -/
def dedupLast {α K : Type} [DecidableEq K] (f : α → K) : List α → List α
  | [] => []
  | a :: l => if l.any (fun b => decide (f b = f a)) then dedupLast f l else a :: dedupLast f l

/-! ### The season-table merge (fetch_epl_data.py, build_all_seasons_csv, lines 99-108)

Source:
  `hist = pd.concat(parts, ignore_index=True)` then `astype(str)` on the key
  columns, `key_cols = [c for c in ["Season","Date","HomeTeam","AwayTeam"] if
  c in hist.columns]`, `if key_cols: hist = hist.drop_duplicates(subset=
  key_cols, keep="last")`, `sort_cols = [c for c in ["Season","Date"] if c in
  hist.columns]`, `if sort_cols: hist = hist.sort_values(sort_cols,
  kind="stable").reset_index(drop=True)`.

Rows are taken already aligned to the concatenated frame's column union
`cols` (the alignment `pd.concat` performs; see `concatTables` below); cell
values are strings, so the `astype(str)` coercion is the identity here. -/
def KEY_PRIORITY : List String := ["Season", "Date", "HomeTeam", "AwayTeam"]

def SORT_PRIORITY : List String := ["Season", "Date"]

def keyColsOf (cols : List String) : List String :=
  KEY_PRIORITY.filter (fun c => decide (c ∈ cols))

def sortColsOf (cols : List String) : List String :=
  SORT_PRIORITY.filter (fun c => decide (c ∈ cols))

/-- The composite key of a row: its values in the key columns `kc`. -/
def rowKey (cols kc : List String) (r : Row) : List String :=
  kc.map (getCellD cols r)

/-- The sort key of a row: its values in the sort columns. -/
def sortKey (cols : List String) (r : Row) : List String :=
  (sortColsOf cols).map (getCellD cols r)

/-- Three-way comparison of character sequences by code point: the
lexicographic string comparison pandas applies to string cells. -/
def cmpCharList : List Char → List Char → Ordering
  | [], [] => .eq
  | [], _ :: _ => .lt
  | _ :: _, [] => .gt
  | a :: as, b :: bs =>
      if a.toNat < b.toNat then .lt
      else if b.toNat < a.toNat then .gt
      else cmpCharList as bs

def cmpStr (a b : String) : Ordering := cmpCharList a.data b.data

/-- Lexicographic less-or-equal on sort-key tuples (lists of string cells),
the order `sort_values` uses for a multi-column sort. -/
def keyLeB : List String → List String → Bool
  | [], _ => true
  | _ :: _, [] => false
  | a :: as, b :: bs =>
      match cmpStr a b with
      | .lt => true
      | .gt => false
      | .eq => keyLeB as bs

/-- Row comparison used by `sort_values(sort_cols)`: lexicographic on the
projected sort columns, comparing the string cells per column. -/
def rowLe (cols : List String) (x y : Row) : Prop :=
  keyLeB (sortKey cols x) (sortKey cols y) = true

instance (cols : List String) : DecidableRel (rowLe cols) := fun _ _ =>
  inferInstanceAs (Decidable (_ = true))

/-- `if key_cols: hist = hist.drop_duplicates(subset=key_cols, keep="last")`. -/
def postDedup (cols : List String) (l : List Row) : List Row :=
  if keyColsOf cols = [] then l else dedupLast (rowKey cols (keyColsOf cols)) l

/-- `if sort_cols: hist = hist.sort_values(sort_cols, kind="stable")`. -/
def sortStep (cols : List String) (l : List Row) : List Row :=
  if sortColsOf cols = [] then l else List.insertionSort (rowLe cols) l

/-- The deduplicating merge of build_all_seasons_csv: concatenate existing
then incoming rows (all aligned to the common column union `cols`), drop
duplicate composite keys keeping the last occurrence, then stably sort. -/
def mergeTables (cols : List String) (existing incoming : List Row) : List Row :=
  sortStep cols (postDedup cols (existing ++ incoming))

/-! ### The odds-history merge (fetch_epl_data.py, save_odds, lines 258-270)

Source: `combined = pd.concat([old, df], ignore_index=True); key_cols = [c
for c in ["game_id","commence_time","bookmaker","market","name","point"] if c
in df.columns]; combined = combined.drop_duplicates(subset=key_cols,
keep="last") if key_cols else combined.drop_duplicates(keep="last")`. -/
def ODDS_KEY_PRIORITY : List String :=
  ["game_id", "commence_time", "bookmaker", "market", "name", "point"]

def oddsKeyColsOf (cols : List String) : List String :=
  ODDS_KEY_PRIORITY.filter (fun c => decide (c ∈ cols))

/-- The odds-history merge: concatenate the persisted history then the fresh
snapshot, then drop duplicate keys keeping the last occurrence; `cols` is the
snapshot's column list (the key columns are selected from `df.columns`).
With no key column present it degrades to full-row
`drop_duplicates(keep="last")`.  No sort step. -/
def mergeOdds (cols : List String) (old incoming : List Row) : List Row :=
  if oddsKeyColsOf cols = [] then dedupLast (fun r : Row => r) (old ++ incoming)
  else dedupLast (rowKey cols (oddsKeyColsOf cols)) (old ++ incoming)

/-! ### Column addressing and projection on tables -/
/-- Index of the first column named `c`, if any. -/
def colIdx? (cols : List String) (c : String) : Option Nat :=
  match cols with
  | [] => none
  | a :: as => if a = c then some 0 else (colIdx? as c).map (· + 1)

/-- `df.loc[:, mask]`: keep exactly the columns satisfying `keep`, projecting
every row to the kept columns. -/
def selectCols (keep : String → Bool) (t : Table) : Table :=
  { cols := t.cols.filter keep,
    rows := t.rows.map (fun r => ((t.cols.zip r).filter (fun cv => keep cv.1)).map Prod.snd) }

/-- `df.drop(columns=[c])`. -/
def dropCol (c : String) (t : Table) : Table :=
  selectCols (fun x => !(decide (x = c))) t

/-- `df[c] = vals` (pandas column assignment): overwrite the column if it
exists, otherwise append it on the right. -/
def setCol (t : Table) (c : String) (vals : List String) : Table :=
  match colIdx? t.cols c with
  | some i => { cols := t.cols, rows := (t.rows.zip vals).map (fun rv => rv.1.set i rv.2) }
  | none => { cols := t.cols ++ [c], rows := (t.rows.zip vals).map (fun rv => rv.1 ++ [rv.2]) }

/-! ### The anti-join differ (update_fbref_team_matchlogs.py, _anti_join, lines 37-46) -/
def KEY_CANDIDATES : List String :=
  ["Wk", "Day", "Date", "Time", "Home", "Score", "Away", "xG", "xG.1",
    "Attendance", "Venue", "Referee"]

/-- `keys = [c for c in KEY_CANDIDATES if c in new.columns and c in old.columns]`. -/
def sharedKeys (new old : Table) : List String :=
  KEY_CANDIDATES.filter (fun c => decide (c ∈ new.cols) && decide (c ∈ old.cols))

/-- The key tuple of a row over the key columns `keys`. -/
def keyTuple (cols keys : List String) (r : Row) : List String :=
  keys.map (getCellD cols r)

/-- `new.astype(str).agg("|".join, axis=1)` for one row: all declared fields
concatenated with "|" in the table's column order. -/
def rowJoin (r : Row) : String := String.intercalate "|" r

/-- `_anti_join(new, old)`, with the post-states of its two arguments made
explicit: the result is `(diff, new-after-call, old-after-call)`.

In the keyed branch, `new.merge(old[keys].drop_duplicates(), on=keys,
how="left", indicator=True)` keeps every row of `new` once, in order (the
right side carries only the deduplicated key columns), and marks a row
`left_only` exactly when its key tuple occurs nowhere in `old`; keeping the
`left_only` rows and dropping `_merge` is therefore the key-membership filter
below, with `new`'s columns preserved.  In the fallback branch, the source
assigns a `_row` column to BOTH inputs (`new["_row"] = ...`,
`old["_row"] = ...`), filters `new` on `~isin`, and drops `_row` only from
the returned frame. -/
def antiJoinSt (new old : Table) : Table × Table × Table :=
  let keys := sharedKeys new old
  if keys = [] then
    let newStrs := new.rows.map rowJoin
    let oldStrs := old.rows.map rowJoin
    let newM := setCol new "_row" newStrs
    let oldM := setCol old "_row" oldStrs
    let kept := ((newM.rows.zip newStrs).filter
      (fun rv => !(decide (rv.2 ∈ oldStrs)))).map Prod.fst
    (dropCol "_row" { cols := newM.cols, rows := kept }, newM, oldM)
  else
    ({ cols := new.cols,
       rows := new.rows.filter (fun r =>
         !(decide (keyTuple new.cols keys r ∈ old.rows.map (keyTuple old.cols keys)))) },
     new, old)

/-- The value `_anti_join` returns. -/
def antiJoin (new old : Table) : Table := (antiJoinSt new old).1

/-! ### Season-label inference (fetch_epl_data.py, infer_season_from_name, lines 58-71) -/
/-- The three anchored season-code regexes of the source, tried in order:
`^(\d\d)[:_](\d\d)$`, `^E0_(\d\d)(\d\d)$`, `^E0_(\d\d\d\d)-(\d\d)$`; `none`
when no pattern matches.  (The patterns match disjoint lengths — 5, 7 and 10
characters — so trying them in order is a plain match.) -/
def seasonParse (l : List Char) : Option String :=
  match l with
  | [a1, a2, sep, b1, b2] =>
      if (sep = ':' ∨ sep = '_') ∧ a1.isDigit ∧ a2.isDigit ∧ b1.isDigit ∧ b2.isDigit then
        some (String.mk ['2', '0', a1, a2, '/', '2', '0', b1, b2])
      else none
  | ['E', '0', '_', a1, a2, b1, b2] =>
      if a1.isDigit ∧ a2.isDigit ∧ b1.isDigit ∧ b2.isDigit then
        some (String.mk ['2', '0', a1, a2, '/', '2', '0', b1, b2])
      else none
  | ['E', '0', '_', y1, y2, y3, y4, '-', b1, b2] =>
      if y1.isDigit ∧ y2.isDigit ∧ y3.isDigit ∧ y4.isDigit ∧ b1.isDigit ∧ b2.isDigit then
        some (String.mk [y1, y2, y3, y4, '/', '2', '0', b1, b2])
      else none
  | _ => none

/-- `infer_season_from_name(stem)`: the first matching pattern's label,
otherwise the raw stem passed through unchanged. -/
def inferSeasonFromName (stem : String) : String :=
  (seasonParse stem.data).getD stem

/-- Character-level shape of a four-digit "YYYY/YYYY" season label. -/
def isYearPairChars (l : List Char) : Bool :=
  match l with
  | [y1, y2, y3, y4, c, z1, z2, z3, z4] =>
      y1.isDigit && y2.isDigit && y3.isDigit && y4.isDigit && decide (c = '/') &&
        z1.isDigit && z2.isDigit && z3.isDigit && z4.isDigit
  | _ => false

/-- A four-digit "YYYY/YYYY" season label. -/
def isYearPairLabel (s : String) : Bool := isYearPairChars s.data

/-! ### The schedule-page reader (update_fbref_team_matchlogs.py, _read_schedule_html) -/
/-- `startsWithChars pat s`: does `s` start with `pat`?  (Hand-rolled so the
kernel can evaluate it on literals.) -/
def startsWithChars : List Char → List Char → Bool
  | [], _ => true
  | _ :: _, [] => false
  | p :: ps, c :: cs => decide (p = c) && startsWithChars ps cs

/-- `df.columns.str.contains("^Unnamed")`: the anchored regex search is a
starts-with test on the column name. -/
def colUnnamed (c : String) : Bool := startsWithChars "Unnamed".data c.data

/-- `_read_schedule_html`: the list of tables `pd.read_html` extracted from
the page is the input (HTML table extraction is an external collaborator per
the spec).  The reader raises on an empty list, and otherwise keeps exactly
the first table with every column matching `^Unnamed` dropped
(`df.loc[:, ~df.columns.str.contains("^Unnamed")]`). -/
def readScheduleHtml (tables : List Table) : Except String Table :=
  match tables with
  | [] => Except.error "No tables found on page."
  | t :: _ => Except.ok (selectCols (fun c => !(colUnnamed c)) t)

/-! ### The FBref schedule sync step (update_fbref_team_matchlogs.py, save_league_schedule_csv)

The fetched schedule table (already extracted by `_read_schedule_html`) is
the input; the persisted file holds a table (the CSV round-trips it).  The
sha256 digest of the serialized table is the abstract digest function `fp`;
the Fingerprinter contract (spec 4.1: any byte difference yields a different
digest) is the injectivity hypothesis carried where needed. -/
/-- `new_df.insert(0, "_fetched_at_utc", <now isoformat>)`. -/
def insertTsCol (now : String) (t : Table) : Table :=
  { cols := "_fetched_at_utc" :: t.cols, rows := t.rows.map (fun r => now :: r) }

/-- `df.drop(columns=["_fetched_at_utc"], errors="ignore")`. -/
def dropTs (t : Table) : Table := dropCol "_fetched_at_utc" t

structure FbrefResult where
  fileAfter : Table
  changed : Bool
  added : Nat
  removed : Nat
deriving DecidableEq

/-- One run of `save_league_schedule_csv` for one league, given the current
wall-clock timestamp, the freshly fetched table and the persisted file (if
any): build `new_df` with the timestamp column at position 0, hash its
serialization, compute added/removed by anti-joins with the timestamp
column dropped on both sides, hash the existing file, and rewrite the file
iff `changed = added>0 or removed>0 or new_hash != old_hash` (a missing file
is always `changed`). -/
def fbrefSync {D : Type} [DecidableEq D] (fp : Table → D) (now : String)
    (fetched : Table) (existing : Option Table) : FbrefResult :=
  let newDf := insertTsCol now fetched
  let newHash := fp newDf
  match existing with
  | none => { fileAfter := newDf, changed := true, added := 0, removed := 0 }
  | some old =>
      let added := (antiJoin (dropTs newDf) (dropTs old)).rows.length
      let removed := (antiJoin (dropTs old) (dropTs newDf)).rows.length
      let changed :=
        decide (0 < added) || decide (0 < removed) || !(decide (newHash = fp old))
      { fileAfter := if changed then newDf else old,
        changed := changed, added := added, removed := removed }

/-! ### The EPL updater (fetch_epl_data.py, update_epl_from_football_data_site, lines 274-292)

The season-code discovery, HTTP fetch and CSV parse are external
collaborators; the step receives the fetched CSV text, its parsed table and
the season code.  State: the hash ledger (`E0_hash.txt`) and the two table
files (`E0_<code>.csv`, `E0_latest.csv`).  The unconditional master-table
rebuild the function ends with (line 294) is the separate Consolidator
component (spec sections 2 and 4.6), modeled by `buildAllSeasons` below. -/
structure EplState (D : Type) where
  ledger : Option D
  current : Option Table
  latest : Option Table
deriving DecidableEq

/-- `f"20{code[:2]}/20{code[2:]}"`. -/
def seasonLabelOfCode (code : String) : String :=
  String.mk (['2', '0'] ++ code.data.take 2 ++ ['/', '2', '0'] ++ code.data.drop 2)

/-- `if "Season" not in df.columns: df["Season"] = f"20{code[:2]}/20{code[2:]}"`. -/
def ensureSeasonCol (code : String) (t : Table) : Table :=
  if "Season" ∈ t.cols then t
  else setCol t "Season" (t.rows.map (fun _ => seasonLabelOfCode code))

/-- One run of the EPL sync step (sans the trailing consolidator call): if
the fetched text's digest equals the ledger digest, report "no new updates"
and do nothing; otherwise write both table files and then the ledger. -/
def eplSync {D : Type} [DecidableEq D] (fp : String → D) (code : String)
    (csvText : String) (parsed : Table) (st : EplState D) : EplState D × Bool :=
  let newHash := fp csvText
  if st.ledger = some newHash then (st, false)
  else
    let df := ensureSeasonCol code parsed
    ({ ledger := some newHash, current := some df, latest := some df }, true)

/-! ### The commit write sequence (fetch_epl_data.py, lines 283-291) -/
/-- The three writes of the committing branch, in program order:
`df.to_csv(current_file)`, `df.to_csv(latest_file)`,
`hash_file.write_text(new_hash)`. -/
inductive CommitAct where
  | writeCurrent
  | writeLatest
  | writeLedger
deriving DecidableEq

def commitSeq : List CommitAct := [.writeCurrent, .writeLatest, .writeLedger]

def applyAct {D : Type} (df : Table) (h : D) (s : EplState D) : CommitAct → EplState D
  | .writeCurrent => { s with current := some df }
  | .writeLatest => { s with latest := some df }
  | .writeLedger => { s with ledger := some h }

def runActs {D : Type} (df : Table) (h : D) (s : EplState D)
    (acts : List CommitAct) : EplState D :=
  acts.foldl (applyAct df h) s

/-! ### The Consolidator (fetch_epl_data.py, build_all_seasons_csv, lines 81-111)

Input: the discovered season files in sorted order, each with its stem and
the result of `safe_read_csv` — either a recovered table (possibly via the
encoding fallbacks) or a failure, represented as `Option Table` (file
discovery and CSV decoding are filesystem/pandas collaborators). -/
/-- Per-part normalization: `if "Season" not in df.columns: df["Season"] =
infer_season_from_name(p.stem)` and `df["SeasonFile"] = p.stem`. -/
def addSeasonCols (stem : String) (t : Table) : Table :=
  let t1 := if "Season" ∈ t.cols then t
    else setCol t "Season" (t.rows.map (fun _ => inferSeasonFromName stem))
  setCol t1 "SeasonFile" (t1.rows.map (fun _ => stem))

/-- `pd.concat(parts, ignore_index=True)`: the union of the column lists in
order of first appearance, every row realigned to it (absent columns filled
with the missing marker). -/
def concatTables (parts : List Table) : Table :=
  let ucols := parts.foldl (fun acc t => acc ++ t.cols.filter (fun c => !(decide (c ∈ acc)))) []
  { cols := ucols,
    rows := (parts.map (fun t => t.rows.map (fun r => ucols.map (getCellD t.cols r)))).flatten }

structure ConsolidateResult where
  output : Option Table
  skipped : List String
deriving DecidableEq

/-- build_all_seasons_csv over the discovered files: the table to write
(`none` when nothing is written: zero files found, or zero readable) plus
the reported skips. -/
def buildAllSeasons (files : List (String × Option Table)) : ConsolidateResult :=
  if files = [] then { output := none, skipped := [] }
  else
    let parts := files.filterMap (fun f => f.2.map (addSeasonCols f.1))
    let skipped := (files.filter (fun f => f.2.isNone)).map Prod.fst
    if parts = [] then { output := none, skipped := skipped }
    else
      let hist := concatTables parts
      { output := some { cols := hist.cols, rows := mergeTables hist.cols [] hist.rows },
        skipped := skipped }

/-- Writing the master table file: output `none` leaves the previous master
table untouched. -/
def masterAfter (prev : Option Table) (r : ConsolidateResult) : Option Table :=
  match r.output with
  | none => prev
  | some t => some t

theorem dedupLast_cons_pos {α K : Type} [DecidableEq K] {f : α → K} {a : α} {l : List α}
    (h : l.any (fun b => decide (f b = f a)) = true) :
    dedupLast f (a :: l) = dedupLast f l := by
  rw [dedupLast, if_pos h]

theorem dedupLast_cons_neg {α K : Type} [DecidableEq K] {f : α → K} {a : α} {l : List α}
    (h : ¬(l.any (fun b => decide (f b = f a)) = true)) :
    dedupLast f (a :: l) = a :: dedupLast f l := by
  rw [dedupLast, if_neg h]

theorem mem_of_mem_dedupLast {α K : Type} [DecidableEq K] {f : α → K} : ∀ {l : List α} {a : α}, a ∈ dedupLast f l → a ∈ l := by
  intro l
  induction l with
  | nil => intro a h; simp [dedupLast] at h
  | cons b l ih =>
    intro a h
    by_cases hb : l.any (fun x => decide (f x = f b)) = true
    · rw [dedupLast_cons_pos hb] at h
      exact List.mem_cons_of_mem _ (ih h)
    · rw [dedupLast_cons_neg hb, List.mem_cons] at h
      rcases h with h | h
      · exact h ▸ List.mem_cons_self _ _
      · exact List.mem_cons_of_mem _ (ih h)

theorem dedupLast_append {α K : Type} [DecidableEq K] (f : α → K) (l₁ l₂ : List α) :
    dedupLast f (l₁ ++ l₂) =
      (dedupLast f l₁).filter (fun a => !(l₂.any (fun b => decide (f b = f a)))) ++ dedupLast f l₂ := by
  induction l₁ with
  | nil => simp [dedupLast]
  | cons a l₁ ih =>
    rw [List.cons_append]
    by_cases h1 : l₁.any (fun b => decide (f b = f a)) = true
    · have hall : (l₁ ++ l₂).any (fun b => decide (f b = f a)) = true := by
        simp only [List.any_append, h1, Bool.true_or]
      rw [dedupLast_cons_pos hall, dedupLast_cons_pos h1, ih]
    · by_cases h2 : l₂.any (fun b => decide (f b = f a)) = true
      · have hall : (l₁ ++ l₂).any (fun b => decide (f b = f a)) = true := by
          simp only [List.any_append, h2, Bool.or_true]
        rw [dedupLast_cons_pos hall, dedupLast_cons_neg h1, ih, List.filter_cons]
        simp [h2]
      · have hall : ¬((l₁ ++ l₂).any (fun b => decide (f b = f a)) = true) := by
          simp only [List.any_append, Bool.or_eq_true]
          tauto
        rw [dedupLast_cons_neg hall, dedupLast_cons_neg h1, ih, List.filter_cons]
        simp [h2]

theorem pairwise_ne_dedupLast {α K : Type} [DecidableEq K] (f : α → K) : ∀ l : List α,
    (dedupLast f l).Pairwise (fun a b => f a ≠ f b) := by
  intro l
  induction l with
  | nil => exact List.Pairwise.nil
  | cons a l ih =>
    by_cases h1 : l.any (fun b => decide (f b = f a)) = true
    · rw [dedupLast_cons_pos h1]; exact ih
    · rw [dedupLast_cons_neg h1]
      refine List.Pairwise.cons ?_ ih
      intro b hb
      have hbl : b ∈ l := mem_of_mem_dedupLast hb
      intro hab
      exact h1 (List.any_eq_true.2 ⟨b, hbl, by simp [hab]⟩)

theorem dedupLast_eq_self_of_pairwise {α K : Type} [DecidableEq K] (f : α → K) :
    ∀ {l : List α}, l.Pairwise (fun a b => f a ≠ f b) → dedupLast f l = l := by
  intro l
  induction l with
  | nil => intro _; rfl
  | cons a l ih =>
    intro hp
    have h1 : ¬(l.any (fun b => decide (f b = f a)) = true) := by
      intro h
      rcases List.any_eq_true.1 h with ⟨b, hb, hfb⟩
      have : f b = f a := of_decide_eq_true hfb
      exact (List.pairwise_cons.1 hp).1 b hb this.symm
    rw [dedupLast_cons_neg h1]
    exact congrArg (a :: ·) (ih (List.pairwise_cons.1 hp).2)

theorem filter_dedupLast_key {α K : Type} [DecidableEq K] (f : α → K) (k : K) : ∀ l : List α,
    (dedupLast f l).filter (fun a => decide (f a = k)) =
      ((l.filter (fun a => decide (f a = k))).getLast?).toList := by
  intro l
  induction l with
  | nil => rfl
  | cons a l ih =>
    by_cases h1 : l.any (fun b => decide (f b = f a)) = true
    · rw [dedupLast_cons_pos h1, ih, List.filter_cons]
      by_cases hk : f a = k
      · rw [if_pos (show decide (f a = k) = true by simp [hk])]
        rcases hlf : l.filter (fun x => decide (f x = k)) with _ | ⟨c, t⟩
        · exfalso
          rcases List.any_eq_true.1 h1 with ⟨b, hb, hfb⟩
          have hbk : f b = k := (of_decide_eq_true hfb).trans hk
          have hmem : b ∈ l.filter (fun x => decide (f x = k)) :=
            List.mem_filter.2 ⟨hb, by simp [hbk]⟩
          rw [hlf] at hmem
          simp at hmem
        · rw [List.getLast?_cons_cons]
      · rw [if_neg (show ¬(decide (f a = k) = true) by simp [hk])]
    · rw [dedupLast_cons_neg h1, List.filter_cons, List.filter_cons]
      by_cases hk : f a = k
      · have hnil : l.filter (fun x => decide (f x = k)) = [] := by
          rw [List.filter_eq_nil_iff]
          intro b hb hbk
          have hba : f b = f a := (of_decide_eq_true hbk).trans hk.symm
          exact h1 (List.any_eq_true.2 ⟨b, hb, by simp [hba]⟩)
        have htail : (dedupLast f l).filter (fun x => decide (f x = k)) = [] := by
          rw [ih, hnil]
          rfl
        rw [if_pos (show decide (f a = k) = true by simp [hk]),
          if_pos (show decide (f a = k) = true by simp [hk]), htail, hnil]
        rfl
      · rw [if_neg (show ¬(decide (f a = k) = true) by simp [hk]),
          if_neg (show ¬(decide (f a = k) = true) by simp [hk]), ih]

theorem filter_idem {α : Type} (p : α → Bool) (l : List α) : (l.filter p).filter p = l.filter p := by
  induction l with
  | nil => rfl
  | cons a l ih =>
    by_cases h : p a = true
    · rw [List.filter_cons, if_pos h, List.filter_cons, if_pos h, ih]
    · rw [List.filter_cons, if_neg h, ih]

/-- Merging by concatenate-then-`dedupLast` is idempotent: re-merging the same
incoming list changes nothing. -/
theorem dedupLast_merge_idem {α K : Type} [DecidableEq K] (f : α → K) (E T : List α) :
    dedupLast f (dedupLast f (E ++ T) ++ T) = dedupLast f (E ++ T) := by
  have hpair := pairwise_ne_dedupLast f (E ++ T)
  have hdd : dedupLast f (dedupLast f (E ++ T)) = dedupLast f (E ++ T) :=
    dedupLast_eq_self_of_pairwise f hpair
  rw [dedupLast_append, hdd, dedupLast_append f E T]
  have hTnil : (dedupLast f T).filter (fun a => !(T.any (fun b => decide (f b = f a)))) = [] := by
    rw [List.filter_eq_nil_iff]
    intro a ha
    have haT : a ∈ T := mem_of_mem_dedupLast ha
    have hany : T.any (fun b => decide (f b = f a)) = true := List.any_eq_true.2 ⟨a, haT, by simp⟩
    simp [hany]
  rw [List.filter_append, hTnil, List.append_nil, filter_idem]

/-! ### Stable sorting: `sort_values(sort_cols, kind="stable")`

The source sorts with a stable sort.  `List.insertionSort` is stable; the
lemmas below isolate the stability facts the claims need: filtering commutes
with stable sorting, and stably sorting an already-stably-sorted prefix gives
the same result as sorting the raw prefix. -/
theorem orderedInsert_filter_neg {α : Type} (r : α → α → Prop) [DecidableRel r]
    (p : α → Bool) (a : α) (ha : ¬(p a = true)) :
    ∀ l : List α, (List.orderedInsert r a l).filter p = l.filter p := by
  intro l
  induction l with
  | nil => simp [ha]
  | cons b l ih =>
    by_cases hab : r a b
    · rw [List.orderedInsert, if_pos hab, List.filter_cons, if_neg ha]
    · rw [List.orderedInsert, if_neg hab, List.filter_cons, List.filter_cons]
      by_cases hb : p b = true
      · rw [if_pos hb, if_pos hb, ih]
      · rw [if_neg hb, if_neg hb, ih]

theorem orderedInsert_of_forall_rel {α : Type} (r : α → α → Prop) [DecidableRel r]
    {a : α} : ∀ {l : List α}, (∀ x ∈ l, r a x) →
    List.orderedInsert r a l = a :: l := by
  intro l h
  cases l with
  | nil => rfl
  | cons b l => rw [List.orderedInsert, if_pos (h b (List.mem_cons_self b l))]

theorem orderedInsert_filter_pos {α : Type} (r : α → α → Prop) [DecidableRel r]
    [IsTrans α r] (p : α → Bool) (a : α) (ha : p a = true) :
    ∀ l : List α, l.Sorted r →
      (List.orderedInsert r a l).filter p = List.orderedInsert r a (l.filter p) := by
  intro l
  induction l with
  | nil => intro _; simp [ha]
  | cons b l ih =>
    intro hs
    by_cases hab : r a b
    · rw [List.orderedInsert, if_pos hab, List.filter_cons, if_pos ha]
      have hall : ∀ x ∈ (b :: l).filter p, r a x := by
        intro x hx
        have hxm : x ∈ b :: l := List.mem_of_mem_filter hx
        rcases List.mem_cons.1 hxm with h | h
        · exact h ▸ hab
        · exact IsTrans.trans a b x hab (List.rel_of_sorted_cons hs x h)
      rw [orderedInsert_of_forall_rel r hall]
    · rw [List.orderedInsert, if_neg hab, List.filter_cons, List.filter_cons]
      by_cases hb : p b = true
      · rw [if_pos hb, if_pos hb, ih hs.of_cons, List.orderedInsert, if_neg hab]
      · rw [if_neg hb, if_neg hb, ih hs.of_cons]

/-- Stability of the sort, phrased as: filtering commutes with sorting. -/
theorem filter_insertionSort {α : Type} (r : α → α → Prop) [DecidableRel r]
    [IsTotal α r] [IsTrans α r] (p : α → Bool) (l : List α) :
    (List.insertionSort r l).filter p = List.insertionSort r (l.filter p) := by
  induction l with
  | nil => rfl
  | cons a l ih =>
    rw [List.insertionSort]
    by_cases ha : p a = true
    · rw [orderedInsert_filter_pos r p a ha _ (List.sorted_insertionSort r l), ih,
        List.filter_cons, if_pos ha, List.insertionSort]
    · rw [orderedInsert_filter_neg r p a ha, ih, List.filter_cons, if_neg ha]

theorem insertionSort_append_foldr {α : Type} (r : α → α → Prop) [DecidableRel r]
    (l₁ l₂ : List α) :
    List.insertionSort r (l₁ ++ l₂) =
      l₁.foldr (List.orderedInsert r) (List.insertionSort r l₂) := by
  induction l₁ with
  | nil => rfl
  | cons a l₁ ih =>
    rw [List.cons_append, List.insertionSort, ih]
    rfl

theorem orderedInsert_comm {α : Type} (r : α → α → Prop) [DecidableRel r]
    [IsTotal α r] [IsTrans α r] {a b : α} (hab : ¬ r a b) :
    ∀ u : List α,
      List.orderedInsert r b (List.orderedInsert r a u) =
        List.orderedInsert r a (List.orderedInsert r b u) := by
  have hba : r b a := (IsTotal.total a b).resolve_left hab
  intro u
  induction u with
  | nil => simp [hab, hba]
  | cons c u ih =>
    by_cases hac : r a c
    · have hbc : r b c := IsTrans.trans b a c hba hac
      simp [List.orderedInsert, hac, hbc, hab, hba]
    · by_cases hbc : r b c
      · simp [List.orderedInsert, hac, hbc, hab, hba]
      · simp [List.orderedInsert, hac, hbc, ih]

theorem foldr_orderedInsert {α : Type} (r : α → α → Prop) [DecidableRel r]
    [IsTotal α r] [IsTrans α r] (a : α) :
    ∀ (t s : List α),
      (List.orderedInsert r a t).foldr (List.orderedInsert r) s =
        List.orderedInsert r a (t.foldr (List.orderedInsert r) s) := by
  intro t
  induction t with
  | nil => intro s; rfl
  | cons b t ih =>
    intro s
    by_cases hab : r a b
    · rw [List.orderedInsert, if_pos hab]
      rfl
    · rw [List.orderedInsert, if_neg hab]
      show List.orderedInsert r b ((List.orderedInsert r a t).foldr (List.orderedInsert r) s) = _
      rw [ih s, orderedInsert_comm r hab]
      rfl

theorem foldr_insertionSort {α : Type} (r : α → α → Prop) [DecidableRel r]
    [IsTotal α r] [IsTrans α r] (s : List α) :
    ∀ l : List α,
      (List.insertionSort r l).foldr (List.orderedInsert r) s =
        l.foldr (List.orderedInsert r) s := by
  intro l
  induction l with
  | nil => rfl
  | cons a l ih =>
    rw [List.insertionSort, foldr_orderedInsert r a, ih]
    rfl

/-- Stably sorting a list whose left part is already stably sorted gives the
same list as sorting the raw concatenation. -/
theorem insertionSort_sorted_append {α : Type} (r : α → α → Prop) [DecidableRel r]
    [IsTotal α r] [IsTrans α r] (l₁ l₂ : List α) :
    List.insertionSort r (List.insertionSort r l₁ ++ l₂) =
      List.insertionSort r (l₁ ++ l₂) := by
  rw [insertionSort_append_foldr, insertionSort_append_foldr, foldr_insertionSort]

theorem cmpCharList_eq_map : ∀ (x y : List Char),
    (cmpCharList x y = .eq ↔ x.map Char.toNat = y.map Char.toNat) := by
  intro x
  induction x with
  | nil => intro y; cases y <;> simp [cmpCharList]
  | cons a as ih =>
    intro y
    cases y with
    | nil => simp [cmpCharList]
    | cons b bs =>
      rw [cmpCharList]
      rcases Nat.lt_trichotomy a.toNat b.toNat with h | h | h
      · rw [if_pos h]
        constructor
        · intro hc; cases hc
        · intro hm
          exact absurd (List.cons.inj hm).1 (by omega)
      · rw [if_neg (by omega), if_neg (by omega), List.map_cons, List.map_cons, h]
        simp [ih bs]
      · rw [if_neg (by omega), if_pos h]
        constructor
        · intro hc; cases hc
        · intro hm
          exact absurd (List.cons.inj hm).1 (by omega)

theorem cmpCharList_congr_left : ∀ (x x' : List Char),
    x.map Char.toNat = x'.map Char.toNat → ∀ y, cmpCharList x y = cmpCharList x' y := by
  intro x
  induction x with
  | nil =>
    intro x' h y
    have : x' = [] := by
      cases x' with
      | nil => rfl
      | cons c cs => simp at h
    rw [this]
  | cons a as ih =>
    intro x' h y
    cases x' with
    | nil => simp at h
    | cons a' as' =>
      rw [List.map_cons, List.map_cons] at h
      have ha : a.toNat = a'.toNat := (List.cons.inj h).1
      have htl : as.map Char.toNat = as'.map Char.toNat := (List.cons.inj h).2
      cases y with
      | nil => rfl
      | cons b bs =>
        rw [cmpCharList, cmpCharList, ha, ih as' htl bs]

theorem cmpCharList_congr_right : ∀ (y y' : List Char),
    y.map Char.toNat = y'.map Char.toNat → ∀ x, cmpCharList x y = cmpCharList x y' := by
  intro y
  induction y with
  | nil =>
    intro y' h x
    have : y' = [] := by
      cases y' with
      | nil => rfl
      | cons c cs => simp at h
    rw [this]
  | cons b bs ih =>
    intro y' h x
    cases y' with
    | nil => simp at h
    | cons b' bs' =>
      rw [List.map_cons, List.map_cons] at h
      have hb : b.toNat = b'.toNat := (List.cons.inj h).1
      have htl : bs.map Char.toNat = bs'.map Char.toNat := (List.cons.inj h).2
      cases x with
      | nil => rfl
      | cons a as =>
        rw [cmpCharList, cmpCharList, hb, ih bs' htl as]

theorem cmpCharList_gt_iff_lt : ∀ (x y : List Char),
    (cmpCharList x y = .gt ↔ cmpCharList y x = .lt) := by
  intro x
  induction x with
  | nil => intro y; cases y <;> simp [cmpCharList]
  | cons a as ih =>
    intro y
    cases y with
    | nil => simp [cmpCharList]
    | cons b bs =>
      rw [cmpCharList, cmpCharList]
      rcases Nat.lt_trichotomy a.toNat b.toNat with h | h | h
      · rw [if_pos h, if_neg (by omega), if_pos h]
        simp
      · rw [if_neg (by omega), if_neg (by omega), if_neg (by omega), if_neg (by omega)]
        exact ih bs
      · rw [if_neg (by omega), if_pos h, if_pos h]
        simp

theorem cmpCharList_lt_trans : ∀ (x y z : List Char),
    cmpCharList x y = .lt → cmpCharList y z = .lt → cmpCharList x z = .lt := by
  intro x
  induction x with
  | nil =>
    intro y z h1 h2
    cases y with
    | nil => exact h2
    | cons b bs =>
      cases z with
      | nil => cases h2
      | cons c cs => rfl
  | cons a as ih =>
    intro y z h1 h2
    cases y with
    | nil => cases h1
    | cons b bs =>
      cases z with
      | nil => cases h2
      | cons c cs =>
        rw [cmpCharList] at h1 h2 ⊢
        rcases Nat.lt_trichotomy a.toNat b.toNat with hab | hab | hab
        · rcases Nat.lt_trichotomy b.toNat c.toNat with hbc | hbc | hbc
          · rw [if_pos (by omega)]
          · rw [if_pos (by omega)]
          · rw [if_neg (by omega), if_pos hbc] at h2
            cases h2
        · rw [if_neg (by omega), if_neg (by omega)] at h1
          rcases Nat.lt_trichotomy b.toNat c.toNat with hbc | hbc | hbc
          · rw [if_pos (by omega)]
          · rw [if_neg (by omega), if_neg (by omega)] at h2 ⊢
            exact ih bs cs h1 h2
          · rw [if_neg (by omega), if_pos hbc] at h2
            cases h2
        · rw [if_neg (by omega), if_pos hab] at h1
          cases h1

theorem keyLeB_total : ∀ x y : List String, keyLeB x y = true ∨ keyLeB y x = true := by
  intro x
  induction x with
  | nil => intro y; left; rfl
  | cons a as ih =>
    intro y
    cases y with
    | nil => right; rfl
    | cons b bs =>
      rw [keyLeB, keyLeB]
      rcases hc : cmpStr a b with _ | _ | _
      · left; rfl
      · have hba : cmpStr b a = .eq := by
          unfold cmpStr at hc ⊢
          exact (cmpCharList_eq_map _ _).2 ((cmpCharList_eq_map _ _).1 hc).symm
        rw [hba]
        exact ih bs
      · have hba : cmpStr b a = .lt := (cmpCharList_gt_iff_lt _ _).1 hc
        rw [hba]
        right; rfl

theorem keyLeB_trans : ∀ x y z : List String,
    keyLeB x y = true → keyLeB y z = true → keyLeB x z = true := by
  intro x
  induction x with
  | nil => intro y z _ _; rfl
  | cons a as ih =>
    intro y z h1 h2
    cases y with
    | nil => cases h1
    | cons b bs =>
      cases z with
      | nil => cases h2
      | cons c cs =>
        rw [keyLeB] at h1 h2 ⊢
        rcases hab : cmpStr a b with _ | _ | _ <;> rw [hab] at h1
        · rcases hbc : cmpStr b c with _ | _ | _ <;> rw [hbc] at h2
          · rw [show cmpStr a c = .lt from cmpCharList_lt_trans _ _ _ hab hbc]
          · have : cmpStr a c = cmpStr a b := by
              unfold cmpStr at hbc ⊢
              exact cmpCharList_congr_right _ _ ((cmpCharList_eq_map _ _).1 hbc).symm _
            rw [this, hab]
          · cases h2
        · rcases hbc : cmpStr b c with _ | _ | _ <;> rw [hbc] at h2
          · have : cmpStr a c = cmpStr b c := by
              unfold cmpStr at hab ⊢
              exact cmpCharList_congr_left _ _ ((cmpCharList_eq_map _ _).1 hab) _
            rw [this, hbc]
          · have : cmpStr a c = .eq := by
              unfold cmpStr at hab hbc ⊢
              exact (cmpCharList_eq_map _ _).2
                (((cmpCharList_eq_map _ _).1 hab).trans ((cmpCharList_eq_map _ _).1 hbc))
            rw [this]
            exact ih bs cs h1 h2
          · cases h2
        · cases h1

instance (cols : List String) : IsTotal Row (rowLe cols) :=
  ⟨fun x y => keyLeB_total (sortKey cols x) (sortKey cols y)⟩

instance (cols : List String) : IsTrans Row (rowLe cols) :=
  ⟨fun _ _ _ h1 h2 => keyLeB_trans _ _ _ h1 h2⟩

/-! ### Helper lemmas for the anti-join claims -/
theorem colIdx?_eq_none_of_not_mem {c : String} :
    ∀ {cols : List String}, c ∉ cols → colIdx? cols c = none := by
  intro cols
  induction cols with
  | nil => intro _; rfl
  | cons a as ih =>
    intro h
    have ha : ¬(a = c) := fun e => h (e ▸ List.mem_cons_self a as)
    rw [colIdx?, if_neg ha, ih (fun hm => h (List.mem_cons_of_mem a hm))]
    rfl

theorem setCol_of_not_mem (t : Table) (c : String) (vals : List String) (hc : c ∉ t.cols) :
    setCol t c vals =
      { cols := t.cols ++ [c], rows := (t.rows.zip vals).map (fun rv => rv.1 ++ [rv.2]) } := by
  rw [setCol, colIdx?_eq_none_of_not_mem hc]

theorem zip_map_zip_self {α β γ : Type} (h : α → β) (g : α × β → γ) :
    ∀ l : List α,
      ((l.zip (l.map h)).map g).zip (l.map h) = l.map (fun x => (g (x, h x), h x)) := by
  intro l
  induction l with
  | nil => rfl
  | cons x l ih =>
    rw [List.map_cons, List.zip_cons_cons, List.map_cons, List.zip_cons_cons, ih, List.map_cons]

/-- Projecting away a fresh sentinel column recovers the original row. -/
theorem select_append_sentinel {cols : List String} {c : String}
    (hc : ∀ x ∈ cols, x ≠ c) {r : Row} (hlen : cols.length = r.length) (v : String) :
    (((cols ++ [c]).zip (r ++ [v])).filter (fun cv => !(decide (cv.1 = c)))).map Prod.snd
      = r := by
  rw [List.zip_append hlen, List.filter_append]
  have h1 : (cols.zip r).filter (fun cv => !(decide (cv.1 = c))) = cols.zip r := by
    rw [List.filter_eq_self]
    intro cv hcv
    have : cv.1 ∈ cols := by
      rcases cv with ⟨x, y⟩
      exact (List.of_mem_zip hcv).1
    simp [hc cv.1 this]
  have h2 : (([c].zip [v]).filter (fun cv => !(decide (cv.1 = c)))) = [] := by
    simp [List.zip_cons_cons]
  rw [h1, h2, List.append_nil]
  exact List.map_snd_zip cols r (le_of_eq hlen.symm)

/-- Dropping a freshly assigned sentinel column restores the table. -/
theorem dropCol_setCol (t : Table) (c : String) (vals : List String) (hc : c ∉ t.cols)
    (hwf : ∀ r ∈ t.rows, r.length = t.cols.length)
    (hlen : t.rows.length = vals.length) :
    dropCol c (setCol t c vals) = t := by
  rw [setCol_of_not_mem t c vals hc, dropCol, selectCols]
  have hcols : (t.cols ++ [c]).filter (fun x => !(decide (x = c))) = t.cols := by
    rw [List.filter_append]
    have h1 : t.cols.filter (fun x => !(decide (x = c))) = t.cols := by
      rw [List.filter_eq_self]
      intro x hx
      have hxc : ¬(x = c) := by
        intro e
        rw [e] at hx
        exact hc hx
      simp [hxc]
    have h2 : [c].filter (fun x => !(decide (x = c))) = [] := by simp
    rw [h1, h2, List.append_nil]
  have hrows :
      ((t.rows.zip vals).map (fun rv => rv.1 ++ [rv.2])).map
        (fun r => (((t.cols ++ [c]).zip r).filter (fun cv => !(decide (cv.1 = c)))).map
          Prod.snd) = t.rows := by
    rw [List.map_map]
    have : ∀ rv ∈ t.rows.zip vals,
        ((fun r => (((t.cols ++ [c]).zip r).filter
            (fun cv => !(decide (cv.1 = c)))).map Prod.snd) ∘
          (fun rv : Row × String => rv.1 ++ [rv.2])) rv = Prod.fst rv := by
      intro rv hrv
      have hr : rv.1 ∈ t.rows := by
        rcases rv with ⟨x, y⟩
        exact (List.of_mem_zip hrv).1
      have hne : ∀ x ∈ t.cols, x ≠ c := by
        intro x hx e
        rw [e] at hx
        exact hc hx
      exact select_append_sentinel hne ((hwf rv.1 hr).symm) rv.2
    rw [List.map_congr_left this]
    exact List.map_fst_zip _ _ (le_of_eq hlen)
  rw [hcols, hrows]

theorem map_zip_self {α β γ : Type} (h : α → β) (g : α × β → γ) :
    ∀ l : List α, (l.zip (l.map h)).map g = l.map (fun x => g (x, h x)) := by
  intro l
  induction l with
  | nil => rfl
  | cons x l ih =>
    rw [List.map_cons, List.zip_cons_cons, List.map_cons, ih, List.map_cons]

/-- In the no-shared-key fallback, and provided `a` does not itself declare a
"_row" column, `diff` returns the rows of `a` whose full-row "|"-joined string
does not occur among `b`'s, with `a`'s columns intact. -/
theorem antiJoin_fallback (a b : Table) (hk : sharedKeys a b = [])
    (hrow : "_row" ∉ a.cols) (hwf : ∀ r ∈ a.rows, r.length = a.cols.length) :
    antiJoin a b =
      { cols := a.cols,
        rows := a.rows.filter (fun r => !(decide (rowJoin r ∈ b.rows.map rowJoin))) } := by
  simp only [antiJoin, antiJoinSt]
  rw [if_pos hk, setCol_of_not_mem a "_row" (a.rows.map rowJoin) hrow]
  dsimp only
  have hkept :
      ((((a.rows.zip (a.rows.map rowJoin)).map (fun rv => rv.1 ++ [rv.2])).zip
          (a.rows.map rowJoin)).filter
        (fun rv => !(decide (rv.2 ∈ b.rows.map rowJoin)))).map Prod.fst =
      (a.rows.filter (fun r => !(decide (rowJoin r ∈ b.rows.map rowJoin)))).map
        (fun r => r ++ [rowJoin r]) := by
    rw [zip_map_zip_self, List.filter_map, List.map_map]
    rfl
  rw [hkept]
  have hset : (Table.mk (a.cols ++ ["_row"])
        ((a.rows.filter
          (fun r => !(decide (rowJoin r ∈ b.rows.map rowJoin)))).map
            (fun r => r ++ [rowJoin r]))) =
      setCol
        (Table.mk a.cols
          (a.rows.filter (fun r => !(decide (rowJoin r ∈ b.rows.map rowJoin)))))
        "_row"
        ((a.rows.filter (fun r => !(decide (rowJoin r ∈ b.rows.map rowJoin)))).map rowJoin) := by
    rw [setCol_of_not_mem
      (Table.mk a.cols
        (a.rows.filter (fun r => !(decide (rowJoin r ∈ b.rows.map rowJoin)))))
      "_row"
      ((a.rows.filter (fun r => !(decide (rowJoin r ∈ b.rows.map rowJoin)))).map rowJoin)
      hrow, map_zip_self]
  rw [hset]
  apply dropCol_setCol
    (Table.mk a.cols
      (a.rows.filter (fun r => !(decide (rowJoin r ∈ b.rows.map rowJoin)))))
    "_row"
    ((a.rows.filter (fun r => !(decide (rowJoin r ∈ b.rows.map rowJoin)))).map rowJoin)
    hrow
  · intro r hr
    exact hwf r (List.mem_of_mem_filter hr)
  · exact (List.length_map _ _).symm

/-- `diff(x, x)` is empty: every row's key (or row string) occurs in `x`. -/
theorem antiJoin_self_rows (x : Table) : (antiJoin x x).rows = [] := by
  by_cases hk : sharedKeys x x = []
  · simp only [antiJoin, antiJoinSt]
    rw [if_pos hk]
    have hkept :
        (((setCol x "_row" (x.rows.map rowJoin)).rows.zip (x.rows.map rowJoin)).filter
          (fun rv => !(decide (rv.2 ∈ x.rows.map rowJoin)))) = [] := by
      rw [List.filter_eq_nil_iff]
      intro rv hrv
      have h2 : rv.2 ∈ x.rows.map rowJoin := by
        rcases rv with ⟨p, q⟩
        exact (List.of_mem_zip hrv).2
      simp [h2]
    dsimp only
    rw [hkept]
    rfl
  · simp only [antiJoin, antiJoinSt]
    rw [if_neg hk]
    show x.rows.filter _ = []
    rw [List.filter_eq_nil_iff]
    intro r hr
    have : keyTuple x.cols (sharedKeys x x) r ∈
        x.rows.map (keyTuple x.cols (sharedKeys x x)) :=
      List.mem_map_of_mem _ hr
    simp [this]

/-! ### C5 / C6: the anti-join differ -/
/-- C5 (amended): `diff(a, b)` returns exactly the rows of `a` whose composite
key (the KEY_CANDIDATES columns shared by `a` and `b`; full-row identity via
the fixed "|"-concatenation of all declared fields when none is shared) does
not occur in `b`, and returns all of `a` when `b` has no rows — provided, in
the no-shared-key case, that `a` does not itself declare a column named
"_row" (otherwise the fallback strips that column from the result). -/
theorem anti_join_diff (a b : Table) (hwf : ∀ r ∈ a.rows, r.length = a.cols.length) :
    (sharedKeys a b ≠ [] →
      antiJoin a b =
        { cols := a.cols,
          rows := a.rows.filter (fun r =>
            !(decide (keyTuple a.cols (sharedKeys a b) r ∈
              b.rows.map (keyTuple b.cols (sharedKeys a b))))) }) ∧
    (sharedKeys a b = [] → "_row" ∉ a.cols →
      antiJoin a b =
        { cols := a.cols,
          rows := a.rows.filter (fun r => !(decide (rowJoin r ∈ b.rows.map rowJoin))) }) ∧
    (b.rows = [] → ("_row" ∉ a.cols ∨ sharedKeys a b ≠ []) → antiJoin a b = a) := by
  have hkeyed : sharedKeys a b ≠ [] →
      antiJoin a b =
        { cols := a.cols,
          rows := a.rows.filter (fun r =>
            !(decide (keyTuple a.cols (sharedKeys a b) r ∈
              b.rows.map (keyTuple b.cols (sharedKeys a b))))) } := by
    intro hk
    simp only [antiJoin, antiJoinSt]
    rw [if_neg hk]
  refine ⟨hkeyed, fun hk hrow => antiJoin_fallback a b hk hrow hwf, ?_⟩
  intro hb hor
  have hmt : ∀ p : Row → Bool, (∀ r, p r = true) → a.rows.filter p = a.rows :=
    fun p hp => List.filter_eq_self.2 (fun r _ => hp r)
  by_cases hk : sharedKeys a b = []
  · rcases hor with hrow | hne
    · rw [antiJoin_fallback a b hk hrow hwf, hb]
      have : a.rows.filter (fun r => !(decide (rowJoin r ∈ ([] : List Row).map rowJoin))) =
          a.rows := hmt _ (fun r => by simp)
      rw [this]
    · exact absurd hk hne
  · rw [hkeyed hk, hb]
    have : a.rows.filter (fun r =>
        !(decide (keyTuple a.cols (sharedKeys a b) r ∈
          ([] : List Row).map (keyTuple b.cols (sharedKeys a b))))) = a.rows :=
      hmt _ (fun r => by simp)
    rw [this]

/-- C5, as literally stated, fails when `a` already declares a "_row" column
and no key column is shared: with `b` empty the result should be all of `a`,
but the fallback overwrites and then strips `a`'s own "_row" column. -/
theorem anti_join_diff_cex :
    antiJoin { cols := ["Foo", "_row"], rows := [["1", "x"]] }
        { cols := ["Bar"], rows := [] } ≠
      { cols := ["Foo", "_row"], rows := [["1", "x"]] } := by
  decide

theorem anti_join_diff_witness :
    antiJoin { cols := ["Date"], rows := [["d1"]] } { cols := ["Date"], rows := [] } =
      { cols := ["Date"], rows := [["d1"]] } :=
  (anti_join_diff { cols := ["Date"], rows := [["d1"]] } { cols := ["Date"], rows := [] }
    (by decide)).2.2 rfl (Or.inr (by decide))

/-- C6 (amended): `diff` leaves both inputs untouched whenever a key column
is shared; when none is shared it assigns a "_row" helper column on BOTH
inputs (mutating them), leaving every original column's values unchanged:
the helper column is appended on the right, and dropping it recovers the
original input whenever "_row" was not already one of its columns. -/
theorem anti_join_mutation (a b : Table)
    (hwfa : ∀ r ∈ a.rows, r.length = a.cols.length)
    (hwfb : ∀ r ∈ b.rows, r.length = b.cols.length) :
    (sharedKeys a b ≠ [] → (antiJoinSt a b).2.1 = a ∧ (antiJoinSt a b).2.2 = b) ∧
    (sharedKeys a b = [] →
      ("_row" ∉ a.cols →
        (antiJoinSt a b).2.1.cols = a.cols ++ ["_row"] ∧
        dropCol "_row" (antiJoinSt a b).2.1 = a) ∧
      ("_row" ∉ b.cols →
        (antiJoinSt a b).2.2.cols = b.cols ++ ["_row"] ∧
        dropCol "_row" (antiJoinSt a b).2.2 = b)) := by
  constructor
  · intro hk
    simp only [antiJoinSt]
    rw [if_neg hk]
    exact ⟨rfl, rfl⟩
  · intro hk
    constructor
    · intro hrow
      simp only [antiJoinSt]
      rw [if_pos hk]
      constructor
      · rw [setCol_of_not_mem a "_row" (a.rows.map rowJoin) hrow]
      · exact dropCol_setCol a "_row" (a.rows.map rowJoin) hrow hwfa
          (List.length_map _ _).symm
    · intro hrow
      simp only [antiJoinSt]
      rw [if_pos hk]
      constructor
      · rw [setCol_of_not_mem b "_row" (b.rows.map rowJoin) hrow]
      · exact dropCol_setCol b "_row" (b.rows.map rowJoin) hrow hwfb
          (List.length_map _ _).symm

/-- C6, as literally stated, is false: in the no-shared-key fallback the
inputs are mutated — after the call, `new` has gained a "_row" column. -/
theorem anti_join_mutation_cex :
    (antiJoinSt { cols := ["Foo"], rows := [["1"]] }
        { cols := ["Bar"], rows := [["2"]] }).2.1 ≠
      { cols := ["Foo"], rows := [["1"]] } := by
  decide

theorem anti_join_mutation_witness :
    (antiJoinSt { cols := ["Date"], rows := [["d"]] }
        { cols := ["Date"], rows := [] }).2.1 =
      { cols := ["Date"], rows := [["d"]] } :=
  ((anti_join_mutation { cols := ["Date"], rows := [["d"]] }
    { cols := ["Date"], rows := [] } (by decide) (by decide)).1 (by decide)).1

theorem zip_filter_proj {α β : Type} (p : α → Bool) :
    ∀ (xs : List α) (ys : List β), xs.length = ys.length →
      (xs.filter p).zip (((xs.zip ys).filter (fun cv => p cv.1)).map Prod.snd) =
        (xs.zip ys).filter (fun cv => p cv.1) := by
  intro xs
  induction xs with
  | nil =>
    intro ys h
    rfl
  | cons x xs ih =>
    intro ys h
    cases ys with
    | nil => cases h
    | cons y ys =>
      have hlen : xs.length = ys.length := by
        simpa using h
      rw [List.zip_cons_cons, List.filter_cons, List.filter_cons]
      by_cases hp : p x = true
      · rw [if_pos hp, if_pos (show p (x, y).1 = true from hp), List.map_cons,
          List.zip_cons_cons, ih ys hlen]
      · rw [if_neg hp, if_neg (show ¬(p (x, y).1 = true) from hp), ih ys hlen]

/-! ### Helper lemmas for the merge claims -/
theorem keyLeB_refl : ∀ x : List String, keyLeB x x = true := by
  intro x
  induction x with
  | nil => rfl
  | cons a as ih =>
    rw [keyLeB, show cmpStr a a = .eq from (cmpCharList_eq_map _ _).2 rfl]
    exact ih

theorem pairwise_of_forall_rel {α : Type} {R : α → α → Prop} (h : ∀ a b, R a b) :
    ∀ l : List α, l.Pairwise R := by
  intro l
  induction l with
  | nil => exact List.Pairwise.nil
  | cons a l ih => exact List.Pairwise.cons (fun b _ => h a b) ih

theorem pairwise_of_forall_mem_rel {α : Type} {R : α → α → Prop} :
    ∀ {l : List α}, (∀ a ∈ l, ∀ b ∈ l, R a b) → l.Pairwise R := by
  intro l
  induction l with
  | nil => intro _; exact List.Pairwise.nil
  | cons a l ih =>
    intro h
    refine List.Pairwise.cons ?_ (ih ?_)
    · intro b hb
      exact h a (List.mem_cons_self a l) b (List.mem_cons_of_mem a hb)
    · intro x hx y hy
      exact h x (List.mem_cons_of_mem a hx) y (List.mem_cons_of_mem a hy)

theorem getLast?_toList_length_one {α : Type} {l : List α} (h : l ≠ []) :
    l.getLast?.toList.length = 1 := by
  rcases hl : l.getLast? with _ | a
  · rw [List.getLast?_eq_none_iff] at hl
    exact absurd hl h
  · rfl

theorem filter_dedupLast_append_not_in {α K : Type} [DecidableEq K] (f : α → K)
    (E T : List α) :
    (dedupLast f (E ++ T)).filter (fun a => !(T.any (fun b => decide (f b = f a)))) =
      (dedupLast f E).filter (fun a => !(T.any (fun b => decide (f b = f a)))) := by
  rw [dedupLast_append, List.filter_append, filter_idem]
  have hTnil :
      (dedupLast f T).filter (fun a => !(T.any (fun b => decide (f b = f a)))) = [] := by
    rw [List.filter_eq_nil_iff]
    intro a ha
    have haT : a ∈ T := mem_of_mem_dedupLast ha
    have hany : T.any (fun b => decide (f b = f a)) = true :=
      List.any_eq_true.2 ⟨a, haT, by simp⟩
    simp [hany]
  rw [hTnil, List.append_nil]

theorem dedupLast_insertionSort (cols : List String) {K : Type} [DecidableEq K]
    (f : Row → K) (l : List Row) (h : l.Pairwise (fun a b => f a ≠ f b)) :
    dedupLast f (List.insertionSort (rowLe cols) l) = List.insertionSort (rowLe cols) l := by
  apply dedupLast_eq_self_of_pairwise
  exact ((List.perm_insertionSort (rowLe cols) l).pairwise_iff
    (fun hab e => hab e.symm)).2 h

/-! ### C1 / C3 / C4: correctness of the deduplicating merge -/
/-- C1 (amended): for every merge with at least one key column present in the
columns, and for every composite key value `k`, the merged table's rows with
key `k` are exactly one copy of the most-recently-merged input row with that
key (the last occurrence in existing-then-incoming order); in particular any
key that occurs at all in the input occurs exactly once in the merge. -/
theorem merge_dedup_correct (cols : List String) (E T : List Row)
    (hkc : keyColsOf cols ≠ []) (k : List String) :
    (mergeTables cols E T).filter
        (fun r => decide (rowKey cols (keyColsOf cols) r = k)) =
      (((E ++ T).filter (fun r => decide (rowKey cols (keyColsOf cols) r = k))).getLast?).toList ∧
    (k ∈ (E ++ T).map (rowKey cols (keyColsOf cols)) →
      ((mergeTables cols E T).filter
          (fun r => decide (rowKey cols (keyColsOf cols) r = k))).length = 1) := by
  have hpd : ∀ l, postDedup cols l = dedupLast (rowKey cols (keyColsOf cols)) l := by
    intro l
    rw [postDedup, if_neg hkc]
  have hmain : (mergeTables cols E T).filter
      (fun r => decide (rowKey cols (keyColsOf cols) r = k)) =
      (((E ++ T).filter (fun r => decide (rowKey cols (keyColsOf cols) r = k))).getLast?).toList := by
    by_cases hsc : sortColsOf cols = []
    · rw [mergeTables, sortStep, if_pos hsc, hpd, filter_dedupLast_key]
    · rw [mergeTables, sortStep, if_neg hsc, hpd, filter_insertionSort, filter_dedupLast_key]
      rcases ((E ++ T).filter (fun r => decide (rowKey cols (keyColsOf cols) r = k))).getLast? with
        _ | r
      · rfl
      · rfl
  refine ⟨hmain, ?_⟩
  intro hk
  rw [hmain]
  apply getLast?_toList_length_one
  rcases List.mem_map.1 hk with ⟨r, hr, hrk⟩
  intro hnil
  have : r ∈ (E ++ T).filter (fun r => decide (rowKey cols (keyColsOf cols) r = k)) :=
    List.mem_filter.2 ⟨hr, by simp [hrk]⟩
  rw [hnil] at this
  simp at this

/-- C1, as literally stated, is false when no key column is present: the two
rows both have the (empty) composite key, yet the merged table keeps both
rather than exactly one. -/
theorem merge_dedup_correct_cex :
    ¬(((mergeTables ["x"] [] [["a"], ["b"]]).filter
        (fun r => decide (rowKey ["x"] (keyColsOf ["x"]) r = []))).length = 1) := by
  decide

theorem merge_dedup_correct_witness :
    (mergeTables ["Season"] [["24"]] [["25"]]).filter
        (fun r => decide (rowKey ["Season"] (keyColsOf ["Season"]) r = ["25"])) = [["25"]] ∧
    ((mergeTables ["Season"] [["24"]] [["25"]]).filter
        (fun r => decide (rowKey ["Season"] (keyColsOf ["Season"]) r = ["25"]))).length = 1 := by
  have h := merge_dedup_correct ["Season"] [["24"]] [["25"]] (by decide) ["25"]
  refine ⟨?_, h.2 (by decide)⟩
  rw [h.1]
  decide

/-- C3 (amended): the season-consolidation merge is idempotent whenever at
least one key column is present in the columns, and the odds-history merge is
idempotent unconditionally (it degrades to full-row dedup). -/
theorem merge_idempotent (cols : List String) (E T : List Row) :
    (keyColsOf cols ≠ [] →
      mergeTables cols (mergeTables cols E T) T = mergeTables cols E T) ∧
    mergeOdds cols (mergeOdds cols E T) T = mergeOdds cols E T := by
  constructor
  · intro hkc
    have hpd : ∀ l, postDedup cols l = dedupLast (rowKey cols (keyColsOf cols)) l := by
      intro l
      rw [postDedup, if_neg hkc]
    by_cases hsc : sortColsOf cols = []
    · have hps : ∀ l, sortStep cols l = l := by
        intro l
        rw [sortStep, if_pos hsc]
      simp only [mergeTables, hpd, hps]
      exact dedupLast_merge_idem _ E T
    · have hps : ∀ l, sortStep cols l = List.insertionSort (rowLe cols) l := by
        intro l
        rw [sortStep, if_neg hsc]
      simp only [mergeTables, hpd, hps]
      rw [dedupLast_append,
        dedupLast_insertionSort cols _ _ (pairwise_ne_dedupLast _ (E ++ T)),
        filter_insertionSort, filter_dedupLast_append_not_in, insertionSort_sorted_append,
        ← dedupLast_append]
  · by_cases h : oddsKeyColsOf cols = []
    · simp only [mergeOdds, if_pos h]
      exact dedupLast_merge_idem _ E T
    · simp only [mergeOdds, if_neg h]
      exact dedupLast_merge_idem _ E T

/-- C3, as literally stated, is false when no key column is present: the
season-consolidation merge then performs no deduplication at all, so merging
the same incoming table twice duplicates its rows. -/
theorem merge_idempotent_cex :
    mergeTables ["x"] (mergeTables ["x"] [] [["a"]]) [["a"]] ≠ mergeTables ["x"] [] [["a"]] := by
  decide

theorem merge_idempotent_witness :
    mergeTables ["Season"] (mergeTables ["Season"] [["24"]] [["25"]]) [["25"]] =
      mergeTables ["Season"] [["24"]] [["25"]] ∧
    mergeOdds ["game_id"] (mergeOdds ["game_id"] [["g0"]] [["g1"]]) [["g1"]] =
      mergeOdds ["game_id"] [["g0"]] [["g1"]] :=
  ⟨(merge_idempotent ["Season"] [["24"]] [["25"]]).1 (by decide),
    (merge_idempotent ["game_id"] [["g0"]] [["g1"]]).2⟩

/-- C4: after deduplication the merged table is stably sorted by the present
sort columns: the output is sorted under the row comparison, and for every
sort-key value the rows with that value appear in exactly their post-dedup
relative order (so for two inputs differing only in the order of rows tied on
the sort key, each output preserves its own post-dedup order of tied rows). -/
theorem merge_stable_sorted (cols : List String) (E T : List Row) :
    (mergeTables cols E T).Sorted (rowLe cols) ∧
    ∀ v : List String,
      (mergeTables cols E T).filter (fun r => decide (sortKey cols r = v)) =
        (postDedup cols (E ++ T)).filter (fun r => decide (sortKey cols r = v)) := by
  by_cases hsc : sortColsOf cols = []
  · have hs : mergeTables cols E T = postDedup cols (E ++ T) := by
      rw [mergeTables, sortStep, if_pos hsc]
    constructor
    · rw [hs]
      apply pairwise_of_forall_rel
      intro x y
      show keyLeB (sortKey cols x) (sortKey cols y) = true
      rw [sortKey, sortKey, hsc]
      rfl
    · intro v
      rw [hs]
  · have hs : mergeTables cols E T =
        List.insertionSort (rowLe cols) (postDedup cols (E ++ T)) := by
      rw [mergeTables, sortStep, if_neg hsc]
    constructor
    · rw [hs]
      exact List.sorted_insertionSort _ _
    · intro v
      rw [hs, filter_insertionSort]
      apply List.Sorted.insertionSort_eq
      apply pairwise_of_forall_mem_rel
      intro x hx y hy
      have hxv : sortKey cols x = v := of_decide_eq_true (List.mem_filter.1 hx).2
      have hyv : sortKey cols y = v := of_decide_eq_true (List.mem_filter.1 hy).2
      show keyLeB (sortKey cols x) (sortKey cols y) = true
      rw [hxv, hyv]
      exact keyLeB_refl v

/-! ### C7: season-label inference -/
/-- C7: season-label inference is total (a plain function of the stem, never
raising) and deterministic; every stem matching a recognized season-code
pattern maps to a four-digit "YYYY/YYYY" label, and every unrecognized stem
is passed through unchanged. -/
theorem infer_season_total (stem : String) :
    (seasonParse stem.data = none → inferSeasonFromName stem = stem) ∧
    (∀ s, seasonParse stem.data = some s →
      inferSeasonFromName stem = s ∧ isYearPairLabel s = true) := by
  constructor
  · intro h
    rw [inferSeasonFromName, h, Option.getD_none]
  · intro s h
    refine ⟨by rw [inferSeasonFromName, h, Option.getD_some], ?_⟩
    have c2 : ('2' : Char).isDigit = true := by decide
    have c0 : ('0' : Char).isDigit = true := by decide
    unfold seasonParse at h
    split at h
    · split at h
      next hg =>
        obtain ⟨hsep, h1, h2, h3, h4⟩ := hg
        rw [← Option.some.inj h]
        simp [isYearPairLabel, isYearPairChars, h1, h2, h3, h4, c2, c0]
      next => cases h
    · split at h
      next hg =>
        obtain ⟨h1, h2, h3, h4⟩ := hg
        rw [← Option.some.inj h]
        simp [isYearPairLabel, isYearPairChars, h1, h2, h3, h4, c2, c0]
      next => cases h
    · split at h
      next hg =>
        obtain ⟨h1, h2, h3, h4, h5, h6⟩ := hg
        rw [← Option.some.inj h]
        simp [isYearPairLabel, isYearPairChars, h1, h2, h3, h4, h5, h6, c2, c0]
      next => cases h
    · cases h

theorem infer_season_witness :
    inferSeasonFromName "14_15" = "2014/2015" ∧ isYearPairLabel "2014/2015" = true :=
  (infer_season_total "14_15").2 "2014/2015" (by decide)

/-! ### C10: the schedule-table reader -/
/-- C10: the schedule-table reader errors exactly when the page contains no
tables; otherwise it returns the first parsed table, ignoring all other
tables, with every column whose name starts with "Unnamed" removed: the kept
columns are the non-Unnamed columns in order, the row count is preserved,
and, for every aligned row, pairing the kept columns with the projected row
yields exactly the non-Unnamed (column, cell) pairs of the original row. -/
theorem read_schedule_html_correct :
    readScheduleHtml [] = Except.error "No tables found on page." ∧
    (∀ (t : Table) (ts : List Table), readScheduleHtml (t :: ts) = readScheduleHtml [t]) ∧
    (∀ (t : Table) (ts : List Table) (u : Table),
      readScheduleHtml (t :: ts) = Except.ok u →
      u.cols = t.cols.filter (fun c => !(colUnnamed c)) ∧
      u.rows.length = t.rows.length ∧
      ∀ r : Row, t.cols.length = r.length →
        u.cols.zip (((t.cols.zip r).filter (fun cv => !(colUnnamed cv.1))).map Prod.snd) =
          (t.cols.zip r).filter (fun cv => !(colUnnamed cv.1))) := by
  refine ⟨rfl, fun t ts => rfl, ?_⟩
  intro t ts u h
  have hu : u = selectCols (fun c => !(colUnnamed c)) t := (Except.ok.inj h).symm
  subst hu
  refine ⟨rfl, ?_, ?_⟩
  · show (t.rows.map _).length = t.rows.length
    rw [List.length_map]
  · intro r hlen
    exact zip_filter_proj (fun c => !(colUnnamed c)) t.cols r hlen

theorem read_schedule_html_witness :
    (selectCols (fun c => !(colUnnamed c))
        { cols := ["Unnamed: 0", "Wk"], rows := [["0", "7"]] }).cols =
      (["Unnamed: 0", "Wk"].filter (fun c => !(colUnnamed c))) :=
  (read_schedule_html_correct.2.2 { cols := ["Unnamed: 0", "Wk"], rows := [["0", "7"]] } []
    (selectCols (fun c => !(colUnnamed c)) { cols := ["Unnamed: 0", "Wk"], rows := [["0", "7"]] })
    rfl).1

/-! ### C2: the ledger gate -/
/-- C2 (amended): (i) for the EPL source, when the fingerprint of the fetched
text equals the recorded ledger digest, the sync step is a no-op — state
unchanged, nothing written, status "unchanged" (the separate consolidator
still rebuilds the master table afterwards); (ii) for the EPL source, on two
consecutive runs with identical fetched content the second run is always such
a no-op; (iii) for the FBref schedule source, when the digest of the new
serialized table — which embeds the fetch timestamp — equals the digest of
the persisted file, no rewrite happens and the run reports no change. -/
theorem ledger_gate_noop {D : Type} [DecidableEq D] (fpS : String → D) (fpT : Table → D)
    (hinj : Function.Injective fpT) :
    (∀ (code text : String) (parsed : Table) (st : EplState D),
      st.ledger = some (fpS text) → eplSync fpS code text parsed st = (st, false)) ∧
    (∀ (code text : String) (parsed : Table) (st : EplState D),
      eplSync fpS code text parsed (eplSync fpS code text parsed st).1 =
        ((eplSync fpS code text parsed st).1, false)) ∧
    (∀ (now : String) (fetched old : Table),
      fpT (insertTsCol now fetched) = fpT old →
      (fbrefSync fpT now fetched (some old)).changed = false ∧
      (fbrefSync fpT now fetched (some old)).fileAfter = old) := by
  have h1 : ∀ (code text : String) (parsed : Table) (st : EplState D),
      st.ledger = some (fpS text) → eplSync fpS code text parsed st = (st, false) := by
    intro code text parsed st hl
    rw [eplSync, if_pos hl]
  refine ⟨h1, ?_, ?_⟩
  · intro code text parsed st
    apply h1
    by_cases hl : st.ledger = some (fpS text)
    · rw [eplSync, if_pos hl]
      exact hl
    · rw [eplSync, if_neg hl]
  · intro now fetched old hfp
    have hold : insertTsCol now fetched = old := hinj hfp
    have ha : (antiJoin (dropTs (insertTsCol now fetched)) (dropTs old)).rows.length = 0 := by
      rw [hold, antiJoin_self_rows]
      rfl
    have hr : (antiJoin (dropTs old) (dropTs (insertTsCol now fetched))).rows.length = 0 := by
      rw [hold, antiJoin_self_rows]
      rfl
    constructor
    · show (fbrefSync fpT now fetched (some old)).changed = false
      simp [fbrefSync, ha, hr, hfp]
    · show (fbrefSync fpT now fetched (some old)).fileAfter = old
      simp [fbrefSync, ha, hr, hfp]

/-- C2, as literally stated, is false for the schedule source: the fetch
timestamp is serialized into the hashed content, so two consecutive runs
with identical fetched content but different timestamps still rewrite the
table — the second run reports changed rather than "unchanged".  (The
fingerprint is instantiated with the identity digest, which satisfies the
Fingerprinter contract exactly.) -/
theorem ledger_gate_noop_cex :
    (fbrefSync (fun t => t) "2025-01-01T00:00:01"
      { cols := ["Wk"], rows := [["1"]] }
      (some (fbrefSync (fun t => t) "2025-01-01T00:00:00"
        { cols := ["Wk"], rows := [["1"]] } none).fileAfter)).changed = true := by
  decide

theorem ledger_gate_noop_witness :
    eplSync (fun s => Table.mk [s] []) "2425" "text" (Table.mk [] [])
      { ledger := some (Table.mk ["text"] []), current := none, latest := none } =
      ({ ledger := some (Table.mk ["text"] []), current := none, latest := none }, false) :=
  (ledger_gate_noop (fun s => Table.mk [s] []) (fun t => t) (fun _ _ h => h)).1
    "2425" "text" (Table.mk [] [])
    { ledger := some (Table.mk ["text"] []), current := none, latest := none } rfl

/-! ### C9: durability ordering of the commit -/
/-- C9: in the committing branch the ledger write is the last of the three
writes, and at every intermediate point of the commit (after every prefix of
the write sequence) the ledger holds the new digest only if both table files
already hold the new data — under the gate precondition that the commit only
runs when the stored digest differs from the new one. -/
theorem commit_durability_order {D : Type} (df : Table) (h : D) (s0 : EplState D)
    (hgate : s0.ledger ≠ some h) :
    commitSeq.getLast? = some CommitAct.writeLedger ∧
    ∀ n : Nat, (runActs df h s0 (commitSeq.take n)).ledger = some h →
      (runActs df h s0 (commitSeq.take n)).current = some df ∧
      (runActs df h s0 (commitSeq.take n)).latest = some df := by
  refine ⟨rfl, ?_⟩
  intro n
  match n with
  | 0 => intro hl; exact absurd hl hgate
  | 1 => intro hl; exact absurd hl hgate
  | 2 => intro hl; exact absurd hl hgate
  | (m + 3) =>
    intro _
    have htake : commitSeq.take (m + 3) = commitSeq :=
      List.take_of_length_le (by simp [commitSeq])
    rw [htake]
    exact ⟨rfl, rfl⟩

theorem commit_durability_order_witness :
    (runActs (Table.mk [] []) (0 : Nat)
        { ledger := none, current := none, latest := none } (commitSeq.take 3)).current =
      some (Table.mk [] []) :=
  ((commit_durability_order (Table.mk [] []) 0
    { ledger := none, current := none, latest := none } (by decide)).2 3 rfl).1

/-! ### C8: the Consolidator -/
theorem filterMap_snd_none {β : Type} (g : String → Table → β) :
    ∀ files : List (String × Option Table), (∀ f ∈ files, f.2 = none) →
      files.filterMap (fun f => f.2.map (g f.1)) = [] := by
  intro files
  induction files with
  | nil => intro _; rfl
  | cons f files ih =>
    intro h
    have hf : f.2 = none := h f (List.mem_cons_self f files)
    rw [List.filterMap_cons, hf]
    exact ih (fun x hx => h x (List.mem_cons_of_mem f hx))

theorem filterMap_snd_filter_isSome {β : Type} (g : String → Table → β) :
    ∀ files : List (String × Option Table),
      files.filterMap (fun f => f.2.map (g f.1)) =
        (files.filter (fun f => f.2.isSome)).filterMap (fun f => f.2.map (g f.1)) := by
  intro files
  induction files with
  | nil => rfl
  | cons f files ih =>
    rcases hf : f.2 with _ | t
    · rw [List.filterMap_cons, hf, List.filter_cons, hf]
      simpa using ih
    · rw [List.filterMap_cons, hf, List.filter_cons, hf]
      simp only [Option.isSome_some, if_true, List.filterMap_cons, hf]
      rw [ih]

theorem filterMap_snd_ne_nil {β : Type} (g : String → Table → β) :
    ∀ files : List (String × Option Table), (∀ f ∈ files, f.2.isSome = true) →
      files ≠ [] → files.filterMap (fun f => f.2.map (g f.1)) ≠ [] := by
  intro files
  induction files with
  | nil => intro _ h; exact absurd rfl h
  | cons f files _ =>
    intro h _
    rcases hf : f.2 with _ | t
    · have := h f (List.mem_cons_self f files)
      rw [hf] at this
      cases this
    · rw [List.filterMap_cons, hf]
      simp

/-- C8: the consolidator reports and skips every unreadable per-source file
and consolidates the rest — its output depends only on the readable files;
with zero files found, or zero readable, it writes nothing (output `none`),
and in that case the previous master table is left untouched, never
overwritten with an empty one. -/
theorem consolidator_skips (files : List (String × Option Table)) :
    buildAllSeasons [] = { output := none, skipped := [] } ∧
    ((∀ f ∈ files, f.2 = none) → (buildAllSeasons files).output = none) ∧
    (buildAllSeasons files).skipped = (files.filter (fun f => f.2.isNone)).map Prod.fst ∧
    (buildAllSeasons files).output =
      (buildAllSeasons (files.filter (fun f => f.2.isSome))).output ∧
    (∀ prev : Option Table, (buildAllSeasons files).output = none →
      masterAfter prev (buildAllSeasons files) = prev) := by
  refine ⟨rfl, ?_, ?_, ?_, ?_⟩
  · intro h
    by_cases hnil : files = []
    · rw [hnil]
      rfl
    · rw [buildAllSeasons, if_neg hnil, filterMap_snd_none addSeasonCols files h]
      rfl
  · by_cases hnil : files = []
    · rw [hnil]
      rfl
    · rw [buildAllSeasons, if_neg hnil]
      by_cases hp : files.filterMap (fun f => f.2.map (addSeasonCols f.1)) = []
      · rw [if_pos hp]
      · rw [if_neg hp]
  · by_cases hnil : files = []
    · rw [hnil]
      rfl
    · by_cases hfil : files.filter (fun f => f.2.isSome) = []
      · have hp : files.filterMap (fun f => f.2.map (addSeasonCols f.1)) = [] := by
          rw [filterMap_snd_filter_isSome addSeasonCols files, hfil]
          rfl
        rw [buildAllSeasons, if_neg hnil, if_pos hp, hfil]
        rfl
      · have hp : files.filterMap (fun f => f.2.map (addSeasonCols f.1)) ≠ [] := by
          rw [filterMap_snd_filter_isSome addSeasonCols files]
          apply filterMap_snd_ne_nil addSeasonCols
          · intro f hf
            exact (List.mem_filter.1 hf).2
          · exact hfil
        have hp2 : (files.filter (fun f => f.2.isSome)).filterMap
            (fun f => f.2.map (addSeasonCols f.1)) ≠ [] := by
          rw [← filterMap_snd_filter_isSome addSeasonCols files]
          exact hp
        rw [buildAllSeasons, if_neg hnil, if_neg hp, buildAllSeasons, if_neg hfil, if_neg hp2,
          filterMap_snd_filter_isSome addSeasonCols files]
  · intro prev h
    simp only [masterAfter, h]

theorem consolidator_skips_witness :
    (buildAllSeasons [("14_15", none)]).output = none ∧
    masterAfter (some (Table.mk ["Date"] [["d"]])) (buildAllSeasons [("14_15", none)]) =
      some (Table.mk ["Date"] [["d"]]) := by
  have h := consolidator_skips [("14_15", none)]
  have hnone : (buildAllSeasons [("14_15", none)]).output = none :=
    h.2.1 (by decide)
  exact ⟨hnone, h.2.2.2.2 (some (Table.mk ["Date"] [["d"]])) hnone⟩

end Zadbz
